import Mathlib

/-!
Verification development for the live market-data service in
`src/discord-viewer/databento-live-test/src/main.rs`.

The service keeps a last-price cache (`HashMap<String, LastPrice>`), a
symbol-mapping table (`HashMap<u32, String>`), a subscription set owned by a
single Databento client-manager task, an HTTP control surface
(`subscribe`, `get_prices`, `ingest_one`, `ingest_hist`) and a websocket
broadcast relay.  The shallow embedding below renders each of those pieces as
executable Lean definitions: hash maps become total functions into `Option`,
hash sets become `String → Bool`, `f64` becomes `ℚ`, `u64`/`u32` become `ℕ`,
and the fallible upstream calls become explicit outcome parameters.
-/

/-- Rust struct `LastPrice { price: Option<f64>, ts_event_ns: Option<u64> }`,
the record type stored in the price cache. -/
structure LastPrice where
  price : Option ℚ
  ts_event_ns : Option ℕ
deriving DecidableEq, Repr

/-- Rust struct `PriceUpdate { symbol, price, timestamp }`, the unit pushed
through the unbounded channel to the websocket broadcaster. -/
structure PriceUpdateM where
  symbol : String
  price : ℚ
  timestamp : ℕ
deriving DecidableEq, Repr

/-- The price cache `HashMap<String, LastPrice>` modelled as a total
function into `Option`. -/
def Cache : Type := String → Option LastPrice

/-- The empty cache (fresh `HashMap::new()`). -/
def emptyCache : Cache := fun _ => none

/-- Model of `HashMap::insert`: unconditional overwrite of one key. -/
def cacheInsert (k : String) (v : LastPrice) (c : Cache) : Cache :=
  fun k' => if k' = k then some v else c k'

/-- Whitespace test used to model Rust `str::trim` (the symbols in play are
ASCII tickers). -/
def isWsChar (c : Char) : Bool := c = ' ' || c = '\t' || c = '\n' || c = '\r'

/-- Trim leading and trailing whitespace from a character list (model of
Rust `str::trim`). -/
def trimChars (cs : List Char) : List Char :=
  (((cs.dropWhile isWsChar).reverse).dropWhile isWsChar).reverse

/-- Rust `fn norm_symbol(s: &str) -> String { s.trim().to_uppercase() }`. -/
def norm_symbol (s : String) : String :=
  String.mk ((trimChars s.data).map Char.toUpper)

/-! ### Subscription multiplexer (`databento_client_manager`)

The manager task owns a local `HashSet<String>` called
`subscribed_instruments` and a `client_started` flag.  On every batch of
symbols received from the control channel it filters the batch down to the
not-yet-subscribed symbols (inserting them into the set as it goes), issues a
single batched upstream `subscribe` call for the new symbols, issues a
`start` call if this is the first successful subscription, and on failure of
either call removes exactly the new symbols from the set again.  The two
upstream calls are fallible; their outcomes are explicit parameters here. -/

/-- Outcome of a fallible upstream call (`client.subscribe` /
`client.start`). -/
inductive UpstreamResult
  | ok
  | err
deriving DecidableEq, Repr

/-- The manager-task state: the `subscribed_instruments` set (modelled as its
characteristic function) and the `client_started` flag. -/
structure ManagerState where
  subscribed : String → Bool
  client_started : Bool

/-- Result of handling one batch from the control channel: the new manager
state, the single batched upstream subscribe call that was issued (with its
exact symbol list), if any, and whether a `start` call was issued. -/
structure BatchResult where
  state : ManagerState
  subCall : Option (List String)
  startCall : Bool

/-- The filtering loop at the top of the manager's subscription branch:

    for sym in symbols {
        if !subscribed_instruments.contains(&sym) {
            new_symbols.push(sym.clone());
            subscribed_instruments.insert(sym);
        }
    }

Returns the `new_symbols` list and the updated set. -/
def filterNew : List String → (String → Bool) → List String × (String → Bool)
  | [], s => ([], s)
  | x :: xs, s =>
    if s x = true then filterNew xs s
    else
      let r := filterNew xs (fun k => if k = x then true else s k)
      (x :: r.1, r.2)

/-- Rollback helper: remove every element of `xs` from the set (the
`for sym in &new_symbols { subscribed_instruments.remove(sym); }` loops in
the two error arms). -/
def removeAll (xs : List String) (s : String → Bool) : String → Bool :=
  fun k => if k ∈ xs then false else s k

/-- The body of the manager's subscription branch after the filtering loop,
parameterised by the outcomes of the upstream `subscribe` and `start` calls:

* `new_symbols` empty: nothing is issued upstream;
* `subscribe` fails: the new symbols are removed from the set again;
* `subscribe` succeeds and the client is already started: done;
* `subscribe` succeeds, client not yet started: a `start` call is issued;
  if it fails the new symbols are removed from the set again and the flag
  stays down. -/
def handleBatchAux (started : Bool) (newSyms : List String) (s : String → Bool)
    (subOutcome startOutcome : UpstreamResult) : BatchResult :=
  match newSyms with
  | [] => ⟨⟨s, started⟩, none, false⟩
  | _ :: _ =>
    match subOutcome with
    | .err => ⟨⟨removeAll newSyms s, started⟩, some newSyms, false⟩
    | .ok =>
      if started then ⟨⟨s, true⟩, some newSyms, false⟩
      else
        match startOutcome with
        | .ok => ⟨⟨s, true⟩, some newSyms, true⟩
        | .err => ⟨⟨removeAll newSyms s, false⟩, some newSyms, true⟩

/-- One full pass of the manager's subscription branch on a batch received
from the control channel. -/
def handleBatch (st : ManagerState) (symbols : List String)
    (subOutcome startOutcome : UpstreamResult) : BatchResult :=
  handleBatchAux st.client_started (filterNew symbols st.subscribed).1
    (filterNew symbols st.subscribed).2 subOutcome startOutcome

/-- A fresh manager state: empty subscription set, client not started. -/
def initSt : ManagerState := ⟨fun _ => false, false⟩

/-! ### Lemmas about the filtering loop -/

theorem filterNew_all_present (S : List String) :
    ∀ s : String → Bool, (∀ x ∈ S, s x = true) → filterNew S s = ([], s) := by
  induction S with
  | nil => intro s _; rfl
  | cons a t ih =>
    intro s h
    have ha : s a = true := h a (List.mem_cons_self a t)
    simp only [filterNew, ha, if_true]
    exact ih s fun x hx => h x (List.mem_cons_of_mem a hx)

theorem filterNew_snd_true (S : List String) :
    ∀ (s : String → Bool) (x : String),
      (filterNew S s).2 x = true ↔ (x ∈ S ∨ s x = true) := by
  induction S with
  | nil => intro s x; simp [filterNew]
  | cons a t ih =>
    intro s x
    cases hsa : s a with
    | true =>
      simp only [filterNew, hsa, if_true]
      rw [ih]
      constructor
      · rintro (hx | hx)
        · exact Or.inl (List.mem_cons_of_mem a hx)
        · exact Or.inr hx
      · rintro (hx | hx)
        · rcases List.mem_cons.mp hx with rfl | hx
          · exact Or.inr hsa
          · exact Or.inl hx
        · exact Or.inr hx
    | false =>
      have : ¬ (s a = true) := by simp [hsa]
      simp only [filterNew, if_neg this]
      rw [ih]
      by_cases hxa : x = a
      · subst hxa
        simp [List.mem_cons]
      · simp [List.mem_cons, hxa]

theorem filterNew_fst_mem (S : List String) :
    ∀ (s : String → Bool) (x : String),
      x ∈ (filterNew S s).1 ↔ (x ∈ S ∧ s x = false) := by
  induction S with
  | nil => intro s x; simp [filterNew]
  | cons a t ih =>
    intro s x
    cases hsa : s a with
    | true =>
      simp only [filterNew, hsa, if_true]
      rw [ih]
      by_cases hxa : x = a
      · subst hxa
        simp [hsa]
      · simp [List.mem_cons, hxa]
    | false =>
      have hna : ¬ (s a = true) := by simp [hsa]
      simp only [filterNew, if_neg hna, List.mem_cons]
      rw [ih]
      by_cases hxa : x = a
      · subst hxa
        simp [hsa]
      · simp [List.mem_cons, hxa]

theorem handleBatchAux_subCall_cons (started : Bool) (a : String) (l : List String)
    (s : String → Bool) (o₁ o₂ : UpstreamResult) :
    (handleBatchAux started (a :: l) s o₁ o₂).subCall = some (a :: l) := by
  cases o₁ <;> cases o₂ <;> cases started <;> rfl

theorem handleBatch_ok_ok_subscribed (st : ManagerState) (S : List String) :
    (handleBatch st S .ok .ok).state.subscribed = (filterNew S st.subscribed).2 := by
  rcases h : (filterNew S st.subscribed).1 with _ | ⟨a, l⟩
  · simp only [handleBatch, h, handleBatchAux]
  · simp only [handleBatch, h, handleBatchAux]
    cases st.client_started <;> rfl

theorem handleBatch_fresh_subCall (st2 : ManagerState) (x : String)
    (h : st2.subscribed x = false) (o₂ o₃ : UpstreamResult) :
    (handleBatch st2 [x] o₂ o₃).subCall = some [x] := by
  have hfil : filterNew [x] st2.subscribed =
      ([x], fun k => if k = x then true else st2.subscribed k) := by
    simp [filterNew, h]
  simp [handleBatch, hfil, handleBatchAux_subCall_cons]

/-- C1: if the upstream subscribe call (or the start call, on a first
subscription) fails for a batch `{X, Y}` of previously unsubscribed symbols,
the manager removes both X and Y from its subscription set again, and a
subsequent request for `{X}` is treated as new: it produces a fresh upstream
subscribe call for exactly `[X]` instead of being filtered out. -/
theorem subscribe_rollback (st : ManagerState) (X Y : String)
    (hX : st.subscribed X = false) (hY : st.subscribed Y = false)
    (o₁ o₂ o₃ : UpstreamResult) :
    ((handleBatch st [X, Y] .err o₁).state.subscribed X = false ∧
     (handleBatch st [X, Y] .err o₁).state.subscribed Y = false ∧
     (handleBatch (handleBatch st [X, Y] .err o₁).state [X] o₂ o₃).subCall = some [X]) ∧
    (st.client_started = false →
      ((handleBatch st [X, Y] .ok .err).state.subscribed X = false ∧
       (handleBatch st [X, Y] .ok .err).state.subscribed Y = false ∧
       (handleBatch (handleBatch st [X, Y] .ok .err).state [X] o₂ o₃).subCall = some [X])) := by
  have hnX : ¬ (st.subscribed X = true) := by simp [hX]
  -- the `new_symbols` list built from the batch [X, Y]
  by_cases hYX : Y = X
  · subst hYX
    have hfil : filterNew [Y, Y] st.subscribed =
        ([Y], fun k => if k = Y then true else st.subscribed k) := by
      simp [filterNew, hnX]
    constructor
    · refine ⟨?_, ?_, ?_⟩
      · simp [handleBatch, hfil, handleBatchAux, removeAll]
      · simp [handleBatch, hfil, handleBatchAux, removeAll]
      · have hsub : (handleBatch st [Y, Y] .err o₁).state.subscribed Y = false := by
          simp [handleBatch, hfil, handleBatchAux, removeAll]
        exact handleBatch_fresh_subCall _ Y hsub o₂ o₃
    · intro hstart
      refine ⟨?_, ?_, ?_⟩
      · simp [handleBatch, hfil, handleBatchAux, hstart, removeAll]
      · simp [handleBatch, hfil, handleBatchAux, hstart, removeAll]
      · have hsub : (handleBatch st [Y, Y] .ok .err).state.subscribed Y = false := by
          simp [handleBatch, hfil, handleBatchAux, hstart, removeAll]
        exact handleBatch_fresh_subCall _ Y hsub o₂ o₃
  · have hfil : filterNew [X, Y] st.subscribed =
        ([X, Y], fun k => if k = Y then true
          else if k = X then true else st.subscribed k) := by
      simp [filterNew, hnX, hYX, hY]
    constructor
    · refine ⟨?_, ?_, ?_⟩
      · simp [handleBatch, hfil, handleBatchAux, removeAll]
      · simp [handleBatch, hfil, handleBatchAux, removeAll]
      · have hsub : (handleBatch st [X, Y] .err o₁).state.subscribed X = false := by
          simp [handleBatch, hfil, handleBatchAux, removeAll]
        exact handleBatch_fresh_subCall _ X hsub o₂ o₃
    · intro hstart
      refine ⟨?_, ?_, ?_⟩
      · simp [handleBatch, hfil, handleBatchAux, hstart, removeAll]
      · simp [handleBatch, hfil, handleBatchAux, hstart, removeAll]
      · have hsub : (handleBatch st [X, Y] .ok .err).state.subscribed X = false := by
          simp [handleBatch, hfil, handleBatchAux, hstart, removeAll]
        exact handleBatch_fresh_subCall _ X hsub o₂ o₃

/-- Witness for C1 at a concrete fresh state and symbols. -/
theorem subscribe_rollback_witness :
    initSt.subscribed "X" = false ∧
    (handleBatch initSt ["X", "Y"] .err .ok).state.subscribed "X" = false ∧
    (handleBatch initSt ["X", "Y"] .err .ok).state.subscribed "Y" = false ∧
    (handleBatch (handleBatch initSt ["X", "Y"] .err .ok).state ["X"] .ok .ok).subCall
      = some ["X"] :=
  ⟨rfl,
   (subscribe_rollback initSt "X" "Y" rfl rfl .ok .ok .ok).1.1,
   (subscribe_rollback initSt "X" "Y" rfl rfl .ok .ok .ok).1.2.1,
   (subscribe_rollback initSt "X" "Y" rfl rfl .ok .ok .ok).1.2.2⟩

theorem handleBatch_noop (st2 : ManagerState) (S : List String)
    (h : ∀ x ∈ S, st2.subscribed x = true) (o₁ o₂ : UpstreamResult) :
    handleBatch st2 S o₁ o₂ = ⟨st2, none, false⟩ := by
  have hfil := filterNew_all_present S st2.subscribed h
  simp [handleBatch, hfil, handleBatchAux]

/-- C2: a second subscribe with an already-subscribed symbol set is a no-op:
the new-symbol list is exactly the requested symbols minus the subscription
set, an empty difference issues no upstream call, a nonempty difference
issues one single batched call for exactly the new symbols, and the second
pass issues no call and leaves the state unchanged. -/
theorem subscribe_idempotent (st : ManagerState) (S : List String)
    (o₁ o₂ : UpstreamResult) :
    ((handleBatch (handleBatch st S .ok .ok).state S o₁ o₂).subCall = none ∧
     (handleBatch (handleBatch st S .ok .ok).state S o₁ o₂).startCall = false ∧
     (handleBatch (handleBatch st S .ok .ok).state S o₁ o₂).state
       = (handleBatch st S .ok .ok).state) ∧
    (∀ x, x ∈ (filterNew S st.subscribed).1 ↔ (x ∈ S ∧ st.subscribed x = false)) ∧
    ((filterNew S st.subscribed).1 = [] → (handleBatch st S .ok .ok).subCall = none) ∧
    ((filterNew S st.subscribed).1 ≠ [] →
      (handleBatch st S .ok .ok).subCall = some (filterNew S st.subscribed).1) := by
  have hsub := handleBatch_ok_ok_subscribed st S
  have hall : ∀ x ∈ S, (handleBatch st S .ok .ok).state.subscribed x = true := by
    intro x hx
    rw [hsub, filterNew_snd_true]
    exact Or.inl hx
  have hnoop := handleBatch_noop (handleBatch st S .ok .ok).state S hall o₁ o₂
  refine ⟨⟨?_, ?_, ?_⟩, ?_, ?_, ?_⟩
  · rw [hnoop]
  · rw [hnoop]
  · rw [hnoop]
  · intro x; exact filterNew_fst_mem S st.subscribed x
  · intro h
    simp [handleBatch, h, handleBatchAux]
  · intro h
    rcases hl : (filterNew S st.subscribed).1 with _ | ⟨a, l⟩
    · exact absurd hl h
    · simp [handleBatch, hl, handleBatchAux_subCall_cons]

/-- Witness for C2 at a concrete fresh state and symbol list. -/
theorem subscribe_idempotent_witness :
    (handleBatch (handleBatch initSt ["AAPL"] .ok .ok).state ["AAPL"] .ok .ok).subCall
      = none ∧
    (handleBatch initSt ["AAPL"] .ok .ok).subCall = some ["AAPL"] := by
  refine ⟨(subscribe_idempotent initSt ["AAPL"] .ok .ok).1.1, ?_⟩
  have h := (subscribe_idempotent initSt ["AAPL"] .ok .ok).2.2.2 (by decide)
  have he : (filterNew ["AAPL"] initSt.subscribed).1 = ["AAPL"] := by decide
  rw [he] at h
  exact h

/-! ### The manager's upstream-read arm (`rec_result = client.next_record()`)

On a record the loop continues; on a clean EOF (`Ok(None)`) the flag is
cleared and the loop breaks; on a read error (`Err(e)`) the flag is cleared,
the task sleeps five seconds, and then the loop *breaks* as well, so the
manager task stops (its own comment says "Try to reconnect after a delay",
but the `break` leaves the only loop there is). -/

/-- The three shapes of `client.next_record()` results. -/
inductive ReadEvent
  | record
  | eof
  | readErr
deriving DecidableEq, Repr

/-- Effect of one pass through the read arm: the new `client_started` flag,
the seconds slept, and whether the manager loop is exited (`break`). -/
structure ReadStepResult where
  client_started : Bool
  sleepSecs : ℕ
  exitsLoop : Bool
deriving DecidableEq, Repr

/-- The read arm of the manager's select loop. -/
def handleReadEvent (started : Bool) (e : ReadEvent) : ReadStepResult :=
  match e with
  | .record => ⟨started, 0, false⟩
  | .eof => ⟨false, 0, true⟩
  | .readErr => ⟨false, 5, true⟩

/-- C4: evaluation of the manager's read arm at the failing input.  A read
error clears the streaming flag and sleeps the fixed five seconds, but then
the manager loop is exited (`exitsLoop = true`) exactly as on clean EOF, so
no reconnection is ever attempted and clean EOF is not the only terminator. -/
theorem manager_read_error_exits :
    handleReadEvent true .readErr = ⟨false, 5, true⟩ ∧
    handleReadEvent true .eof = ⟨false, 0, true⟩ ∧
    (handleReadEvent true .readErr).exitsLoop = true := by
  decide

/-! ### Trade routing (the `TradeMsg` branch of the manager) -/

/-- The synthetic cache key `format!("INST:{}", inst)`. -/
def instKey (inst : ℕ) : String := "INST:" ++ toString inst

/-- Resolution of the display symbol: the mapping-table entry if present,
else the synthetic instrument key. -/
def resolveSymbol (mapping : ℕ → Option String) (inst : ℕ) : String :=
  (mapping inst).getD (instKey inst)

/-- The fields of `TradeMsg` the routing step reads: instrument id, raw
price in nano-dollars, and event timestamp. -/
structure TradeMsgM where
  instrument_id : ℕ
  price : ℤ
  ts_event : ℕ
deriving DecidableEq, Repr

/-- The trade branch of the manager: divide the raw price by 1e9, resolve
the display symbol via the mapping table (synthetic key fallback), insert
one `LastPrice` record into the cache under that single key, and emit one
`PriceUpdate` event. -/
def routeTrade (mapping : ℕ → Option String) (cache : Cache) (t : TradeMsgM) :
    Cache × PriceUpdateM :=
  let px : ℚ := (t.price : ℚ) / 1000000000
  let symbol := resolveSymbol mapping t.instrument_id
  (cacheInsert symbol ⟨some px, some t.ts_event⟩ cache,
   ⟨symbol, px, t.ts_event⟩)

/-- A concrete mapping table holding `1 ↦ "AAPL"`. -/
def mapping0 : ℕ → Option String := fun i => if i = 1 then some "AAPL" else none

/-- C3 counterexample: a mapped trade is stored under the mapped symbol key
only; the synthetic `INST:<id>` key stays empty, so the claimed two-key
storage fails on a concrete mapped trade. -/
theorem trade_single_key_cex :
    (routeTrade mapping0 emptyCache ⟨1, 100000000000, 5⟩).1 "INST:1" = none ∧
    (routeTrade mapping0 emptyCache ⟨1, 100000000000, 5⟩).1 "AAPL"
      = some ⟨some 100, some 5⟩ := by
  constructor
  · decide
  · show (if ("AAPL" : String) = resolveSymbol mapping0 1
        then some (⟨some (((100000000000 : ℤ) : ℚ) / 1000000000), some 5⟩ : LastPrice)
        else emptyCache "AAPL") = some ⟨some 100, some 5⟩
    norm_num [resolveSymbol, mapping0, emptyCache]

/-- C3 amended: every trade record is written to the price cache under
exactly one key — the mapped display symbol when a mapping for its
instrument id exists, otherwise the synthetic `INST:<id>` key — and no other
cache key changes; a trade arriving before its mapping record is therefore
observable under the synthetic key, but a mapped trade is not additionally
stored under it. -/
theorem trade_single_key (mapping : ℕ → Option String) (cache : Cache)
    (t : TradeMsgM) :
    (∀ s, mapping t.instrument_id = some s →
      (routeTrade mapping cache t).1 s
        = some ⟨some ((t.price : ℚ) / 1000000000), some t.ts_event⟩) ∧
    (mapping t.instrument_id = none →
      (routeTrade mapping cache t).1 (instKey t.instrument_id)
        = some ⟨some ((t.price : ℚ) / 1000000000), some t.ts_event⟩) ∧
    (∀ k, k ≠ resolveSymbol mapping t.instrument_id →
      (routeTrade mapping cache t).1 k = cache k) := by
  refine ⟨?_, ?_, ?_⟩
  · intro s hs
    simp [routeTrade, resolveSymbol, hs, cacheInsert]
  · intro h
    simp [routeTrade, resolveSymbol, h, cacheInsert]
  · intro k hk
    simp [routeTrade, cacheInsert, hk]

/-- Witness for the amended C3 at a concrete mapped trade. -/
theorem trade_single_key_witness :
    mapping0 1 = some "AAPL" ∧
    (routeTrade mapping0 emptyCache ⟨1, 100000000000, 5⟩).1 "AAPL"
      = some ⟨some (((100000000000 : ℤ) : ℚ) / 1000000000), some 5⟩ :=
  ⟨rfl, (trade_single_key mapping0 emptyCache ⟨1, 100000000000, 5⟩).1 "AAPL" rfl⟩

/-! ### Decoding the raw-symbol field of a mapping record

The source decodes `mapping.stype_out_symbol` (a fixed-width byte array)
with `unsafe { CStr::from_ptr(...) }`: a scan for the first zero byte that
is not bounded by the length of the field, so it runs on into whatever
bytes follow the field in memory. -/

/-- Model of the unsafe `CStr::from_ptr` scan: `field` is the fixed-width
raw-symbol array, `beyond` the adjacent bytes after it in memory; the scan
takes bytes up to the first zero, wherever that is. -/
def cstr_from_ptr (field beyond : List ℕ) : List ℕ :=
  (field ++ beyond).takeWhile (fun b => b ≠ 0)

/-- Modelled from the spec: the bounds-checked decode the spec prescribes —
stop at the first zero terminator or at the full field length, whichever
comes first, never reading outside the field. -/
def spec_bounded_decode (field : List ℕ) : List ℕ :=
  field.takeWhile (fun b => b ≠ 0)

/-- C9 counterexample: a field with no zero terminator makes the unchecked
scan read past the field — its result is longer than the field, differs from
the bounds-checked decode, and depends on the unrelated bytes that happen to
sit after the field. -/
theorem decode_unbounded_cex :
    cstr_from_ptr [65, 66] [67, 0] = [65, 66, 67] ∧
    spec_bounded_decode [65, 66] = [65, 66] ∧
    cstr_from_ptr [65, 66] [67, 0] ≠ spec_bounded_decode [65, 66] ∧
    cstr_from_ptr [65, 66] [67, 0] ≠ cstr_from_ptr [65, 66] [0, 0] := by
  decide

/-- C9 amended: the raw-symbol field is decoded by an unchecked scan to the
first zero byte with no bound at the field length: when the field does
contain a zero terminator the scan coincides with the bounds-checked decode,
but a malformed field without one is not rejected — the scan reads past the
field and its result is the whole field followed by adjacent memory up to
the next zero. -/
theorem takeWhile_append_of_bad (p : ℕ → Bool) :
    ∀ l l2 : List ℕ, (∃ x ∈ l, p x = false) →
      (l ++ l2).takeWhile p = l.takeWhile p := by
  intro l
  induction l with
  | nil => intro l2 h; simp at h
  | cons a t ih =>
    intro l2 h
    cases hpa : p a with
    | false => simp [List.takeWhile, hpa]
    | true =>
      have hbad : ∃ x ∈ t, p x = false := by
        rcases h with ⟨x, hx, hpx⟩
        rcases List.mem_cons.mp hx with rfl | hx
        · rw [hpa] at hpx; cases hpx
        · exact ⟨x, hx, hpx⟩
      simp [List.takeWhile, hpa, ih l2 hbad]

theorem takeWhile_append_of_good (p : ℕ → Bool) :
    ∀ l l2 : List ℕ, (∀ x ∈ l, p x = true) →
      (l ++ l2).takeWhile p = l ++ l2.takeWhile p := by
  intro l
  induction l with
  | nil => intro l2 _; simp
  | cons a t ih =>
    intro l2 h
    have hpa : p a = true := h a (List.mem_cons_self a t)
    simp [List.takeWhile, hpa, ih l2 fun x hx => h x (List.mem_cons_of_mem a hx)]

theorem decode_zero_terminated (field beyond : List ℕ) :
    ((0 ∈ field) → ∀ b2 : List ℕ, cstr_from_ptr field b2 = spec_bounded_decode field) ∧
    ((0 ∉ field) →
      cstr_from_ptr field beyond = field ++ beyond.takeWhile (fun b => b ≠ 0)) := by
  constructor
  · intro h0 b2
    unfold cstr_from_ptr spec_bounded_decode
    exact takeWhile_append_of_bad _ field b2 ⟨0, h0, by simp⟩
  · intro h0
    unfold cstr_from_ptr
    apply takeWhile_append_of_good
    intro x hx
    simp only [ne_eq, decide_eq_true_eq]
    exact fun hxx => h0 (hxx ▸ hx)

/-- Witness for the amended C9 at a properly zero-terminated field. -/
theorem decode_zero_terminated_witness :
    (0 : ℕ) ∈ [65, 0] ∧ cstr_from_ptr [65, 0] [9] = spec_bounded_decode [65, 0] :=
  ⟨by decide, (decode_zero_terminated [65, 0] [9]).1 (by decide) [9]⟩

/-! ### Websocket broadcast relay (`start_websocket_broadcaster`)

The relay runs an outer reconnect loop.  A failed `connect_async` sleeps ten
seconds and retries without touching the queue.  A successful connect enters
an inner select loop: each iteration either dequeues the next event and
sends it — a failed send breaks the loop and that event is dropped, never
re-queued — or the websocket side (close frame, error, stream end) breaks
the loop without consuming an event; leaving the inner loop sleeps five
seconds before reconnecting.

An episode of the inner loop is modelled by a schedule `oks : List Bool`:
its length is how many dequeue iterations happen before the websocket side
breaks the loop, and each entry is the outcome of that iteration's send. -/

/-- One connected inner loop: returns the events actually written to the
websocket and the events still queued when the loop is left. -/
def forward_loop : List PriceUpdateM → List Bool → List PriceUpdateM × List PriceUpdateM
  | queue, [] => ([], queue)
  | [], _ :: _ => ([], [])
  | u :: rest, ok :: oks =>
    if ok then
      let r := forward_loop rest oks
      (u :: r.1, r.2)
    else ([], rest)

/-- The outer reconnect loop over a list of episodes: `none` is a failed
connection attempt (nothing dequeued), `some oks` a connected episode. -/
def relay_run : List PriceUpdateM → List (Option (List Bool)) →
    List PriceUpdateM × List PriceUpdateM
  | queue, [] => ([], queue)
  | queue, none :: es => relay_run queue es
  | queue, some oks :: es =>
    let e := forward_loop queue oks
    let r := relay_run e.2 es
    (e.1 ++ r.1, r.2)

/-- The sleep taken at the bottom of the outer loop: five seconds after a
connection that was established and then lost, ten seconds after a failed
connection attempt. -/
def reconnect_delay (connectSucceeded : Bool) : ℕ :=
  if connectSucceeded then 5 else 10

theorem forward_loop_count (u : PriceUpdateM) :
    ∀ (oks : List Bool) (queue : List PriceUpdateM),
      (forward_loop queue oks).1.count u + (forward_loop queue oks).2.count u
        ≤ queue.count u := by
  intro oks
  induction oks with
  | nil => intro queue; simp [forward_loop]
  | cons ok oks ih =>
    intro queue
    cases queue with
    | nil => simp [forward_loop]
    | cons v rest =>
      cases ok with
      | false =>
        simp [forward_loop, List.count_cons]
      | true =>
        have h := ih rest
        simp only [forward_loop, if_true, List.count_cons]
        simp only [List.count_cons] at h ⊢
        split <;> omega
  

theorem relay_run_count (u : PriceUpdateM) :
    ∀ (episodes : List (Option (List Bool))) (queue : List PriceUpdateM),
      (relay_run queue episodes).1.count u + (relay_run queue episodes).2.count u
        ≤ queue.count u := by
  intro es
  induction es with
  | nil => intro q; simp [relay_run]
  | cons e es ih =>
    intro q
    cases e with
    | none => simpa [relay_run] using ih q
    | some oks =>
      have h1 := forward_loop_count u oks q
      have h2 := ih (forward_loop q oks).2
      simp only [relay_run, List.count_append]
      omega

theorem forward_loop_shape :
    ∀ (oks : List Bool) (queue : List PriceUpdateM),
      ∃ k, (forward_loop queue oks).1 = queue.take k ∧
        ((forward_loop queue oks).2 = queue.drop k ∨
         (forward_loop queue oks).2 = queue.drop (k + 1)) := by
  intro oks
  induction oks with
  | nil =>
    intro queue
    exact ⟨0, by simp [forward_loop], Or.inl (by simp [forward_loop])⟩
  | cons ok oks ih =>
    intro queue
    cases queue with
    | nil => exact ⟨0, by simp [forward_loop], Or.inl (by simp [forward_loop])⟩
    | cons v rest =>
      cases ok with
      | false =>
        exact ⟨0, by simp [forward_loop], Or.inr (by simp [forward_loop])⟩
      | true =>
        obtain ⟨k, h1, h2⟩ := ih rest
        refine ⟨k + 1, ?_, ?_⟩
        · simp [forward_loop, h1]
        · rcases h2 with h2 | h2
          · exact Or.inl (by simp [forward_loop, h2])
          · exact Or.inr (by simp [forward_loop, h2])

/-- C5: delivery by the relay is at most once per queued event.  In every
connected episode the delivered events are a FIFO prefix of the queue, and
the remaining queue resumes either right after that prefix or one event
later — the event whose send failed is consumed but never delivered and
never re-queued.  Across an arbitrary run of connection episodes, an event's
total deliveries plus its remaining queued occurrences never exceed its
original queued occurrences (no replay, no duplication).  The reconnect
sleep is five seconds after a lost connection and ten seconds after a failed
connection attempt. -/
theorem relay_at_most_once (queue : List PriceUpdateM) (oks : List Bool)
    (episodes : List (Option (List Bool))) (u : PriceUpdateM) :
    (∃ k, (forward_loop queue oks).1 = queue.take k ∧
      ((forward_loop queue oks).2 = queue.drop k ∨
       (forward_loop queue oks).2 = queue.drop (k + 1))) ∧
    ((relay_run queue episodes).1.count u + (relay_run queue episodes).2.count u
      ≤ queue.count u) ∧
    reconnect_delay true = 5 ∧ reconnect_delay false = 10 :=
  ⟨forward_loop_shape oks queue, relay_run_count u episodes queue, rfl, rfl⟩

/-! ### HTTP control surface: `get_prices` and `ingest_one` -/

/-- Rust `str::split(',')` on the raw `symbols` query parameter, modelled on
the character list. -/
def splitOnChar (sep : Char) : List Char → List (List Char)
  | [] => [[]]
  | c :: rest =>
    let r := splitOnChar sep rest
    if c = sep then [] :: r
    else
      match r with
      | [] => [[c]]
      | h :: t => (c :: h) :: t

/-- The `get_prices` handler: split the query parameter on commas and look
each piece up in the cache *as is* — no `norm_symbol` is applied to the
query — collecting only the keys that are present. -/
def get_prices_model (cache : Cache) (symbolsParam : String) :
    List (String × LastPrice) :=
  ((splitOnChar ',' symbolsParam.data).map String.mk).filterMap
    (fun s => (cache s).map (fun p => (s, p)))

/-- The `ingest_one` handler: write one record under the canonicalized
symbol, with the timestamp defaulting to the current wall clock
(`body.ts_event_ns.or(Some(current_time_ns()))`). -/
def ingest_one_model (cache : Cache) (symbol : String) (price : ℚ)
    (ts_event_ns : Option ℕ) (now : ℕ) : Cache :=
  cacheInsert (norm_symbol symbol) ⟨some price, ts_event_ns.or (some now)⟩ cache

/-- C6 counterexample: after ingesting under "AAPL" (canonical form
"AAPL"), querying the lower-case "aapl" returns nothing, because the query
path looks up the raw string — so "subscribe A, query a" and
"subscribe a, query A" are not symmetric as claimed. -/
theorem query_not_normalized_cex :
    get_prices_model (ingest_one_model emptyCache "AAPL" 1 none 7) "aapl" = [] ∧
    get_prices_model (ingest_one_model emptyCache "AAPL" 1 none 7) "AAPL"
      = [("AAPL", ⟨some 1, some 7⟩)] := by
  constructor
  · decide
  · decide

/-- C6 amended: the ingest and subscribe paths canonicalize symbols by
trimming whitespace and upper-casing, and the canonical form is the cache
key: ingesting any spelling of a symbol makes the entry retrievable under
the canonical form of any other spelling with the same canonicalization
(so ingesting "aapl" then querying "AAPL" works); but the query path does
not canonicalize, so a non-canonical query string like "aapl" misses. -/
theorem canonical_ingest_lookup (cache : Cache) (s₁ s₂ : String) (p : ℚ)
    (ts : Option ℕ) (now : ℕ) (h : norm_symbol s₁ = norm_symbol s₂) :
    (ingest_one_model cache s₁ p ts now) (norm_symbol s₂)
      = some ⟨some p, ts.or (some now)⟩ := by
  simp [ingest_one_model, cacheInsert, h]

/-- Witness for the amended C6: ingest "aapl", query the canonical "AAPL". -/
theorem canonical_ingest_lookup_witness :
    norm_symbol "aapl" = norm_symbol " AAPL " ∧
    (ingest_one_model emptyCache "aapl" 1 none 7) (norm_symbol " AAPL ")
      = some ⟨some 1, some 7⟩ :=
  ⟨by decide, canonical_ingest_lookup emptyCache "aapl" " AAPL " 1 none 7 (by decide)⟩

/-! ### Historical backfill (`ingest_hist`)

The handler fetches a ±1-second trades window over HTTP and folds over the
response lines.  A line contributes only if it has a `price` field; its
`size` defaults to 0.  Prices arrive in nano-dollars and are divided by 1e9.
Sizes contribute to the running totals only when strictly positive; every
priced line updates the running min/max (`f64::INFINITY` sentinels are
modelled as `Option ℚ` with `none` for "not yet set" — in `ℚ` every price
is finite, so the source's `px.is_finite()` guard is always true) and bumps
the trade count.  Zero trades yields 404 with no cache write; an upstream
HTTP failure yields 502 with no cache write; otherwise the VWAP (or the
min/max midpoint when the traded size is zero) is written with a single
insert under the canonicalized symbol. -/

/-- One parsed response line: the optional raw price (nano-dollars) and the
size (defaulted to 0 when absent). -/
structure TradeLine where
  price : Option ℚ
  size : ℚ
deriving DecidableEq, Repr

/-- The running accumulator of the parse loop. -/
structure HistAcc where
  total_px : ℚ
  total_sz : ℚ
  min_px : Option ℚ
  max_px : Option ℚ
  trades : ℕ
deriving DecidableEq, Repr

/-- Initial accumulator: zero totals, min/max at their infinity sentinels,
zero trades. -/
def histInit : HistAcc := ⟨0, 0, none, none, 0⟩

/-- Running-minimum update `if px < min_px { min_px = px }`, with `none`
standing for the initial `f64::INFINITY`. -/
def minComb (o : Option ℚ) (px : ℚ) : Option ℚ :=
  some (match o with
    | none => px
    | some m => if px < m then px else m)

/-- Running-maximum update `if px > max_px { max_px = px }`, with `none`
standing for the initial `f64::NEG_INFINITY`. -/
def maxComb (o : Option ℚ) (px : ℚ) : Option ℚ :=
  some (match o with
    | none => px
    | some m => if m < px then px else m)

/-- One iteration of the parse loop. -/
def histStep (acc : HistAcc) (l : TradeLine) : HistAcc :=
  match l.price with
  | none => acc
  | some pnanos =>
    let px := pnanos / 1000000000
    let acc1 :=
      if 0 < l.size then
        { acc with total_px := acc.total_px + px * l.size,
                   total_sz := acc.total_sz + l.size }
      else acc
    { acc1 with
      min_px := minComb acc1.min_px px,
      max_px := maxComb acc1.max_px px,
      trades := acc1.trades + 1 }

/-- The dollar price of a line (raw nano-dollar price divided by 1e9). -/
def pxOf (l : TradeLine) : ℚ := (l.price.getD 0) / 1000000000

/-- The dollar prices of the priced lines of a window, in order. -/
def pxList (lines : List TradeLine) : List ℚ :=
  lines.filterMap (fun l => l.price.map (fun p => p / 1000000000))

/-- The final VWAP computation:
`if total_sz > 0.0 { total_px / total_sz } else { (min_px + max_px) / 2.0 }`
(the `getD 0` defaults are never reached when at least one trade was
counted, since every counted trade sets min/max). -/
def histVwap (acc : HistAcc) : ℚ :=
  if 0 < acc.total_sz then acc.total_px / acc.total_sz
  else ((acc.min_px.getD 0) + (acc.max_px.getD 0)) / 2

/-- Outcome of the upstream historical HTTP fetch, as distinguished by the
handler: transport failure, non-success status, unreadable body, or a body
parsed into trade lines. -/
inductive HistFetch
  | reqFail
  | non200 (code : ℕ)
  | bodyFail
  | okBody (lines : List TradeLine)

/-- The handler's response: 502 bad gateway, 404 not found, or 200 with the
symbol, the computed price and the trade count. -/
inductive HistResponse
  | badGateway
  | notFound
  | okResp (symbol : String) (price : ℚ) (trades : ℕ)
deriving DecidableEq, Repr

/-- The `ingest_hist` handler after timestamp parsing: fetch, fold, and
either fail without touching the cache or write the single record under the
canonicalized symbol. -/
def ingest_hist_model (cache : Cache) (symbol : String) (fetch : HistFetch)
    (now : ℕ) : HistResponse × Cache :=
  let sym := norm_symbol symbol
  match fetch with
  | .reqFail => (.badGateway, cache)
  | .non200 _ => (.badGateway, cache)
  | .bodyFail => (.badGateway, cache)
  | .okBody lines =>
    let acc := lines.foldl histStep histInit
    if acc.trades = 0 then (.notFound, cache)
    else
      let vwap := histVwap acc
      (.okResp sym vwap acc.trades,
       cacheInsert sym ⟨some vwap, some now⟩ cache)

/-! ### Fold characterizations for the backfill accumulator -/

theorem hist_fold_pos (lines : List TradeLine) :
    ∀ acc : HistAcc, (∀ l ∈ lines, l.price.isSome) → (∀ l ∈ lines, 0 < l.size) →
      ((lines.foldl histStep acc).total_px
          = acc.total_px + (lines.map (fun l => pxOf l * l.size)).sum ∧
       (lines.foldl histStep acc).total_sz
          = acc.total_sz + (lines.map (fun l => l.size)).sum ∧
       (lines.foldl histStep acc).trades = acc.trades + lines.length) := by
  induction lines with
  | nil => intro acc _ _; simp
  | cons a t ih =>
    intro acc hP hS
    obtain ⟨pa, hpa⟩ := Option.isSome_iff_exists.mp (hP a (List.mem_cons_self a t))
    have hsa : 0 < a.size := hS a (List.mem_cons_self a t)
    have hPt : ∀ l ∈ t, l.price.isSome := fun l hl => hP l (List.mem_cons_of_mem a hl)
    have hSt : ∀ l ∈ t, 0 < l.size := fun l hl => hS l (List.mem_cons_of_mem a hl)
    have hstep : histStep acc a =
        { acc with
          total_px := acc.total_px + (pa / 1000000000) * a.size,
          total_sz := acc.total_sz + a.size,
          min_px := minComb acc.min_px (pa / 1000000000),
          max_px := maxComb acc.max_px (pa / 1000000000),
          trades := acc.trades + 1 } := by
      simp [histStep, hpa, hsa]
    obtain ⟨h1, h2, h3⟩ := ih (histStep acc a) hPt hSt
    rw [List.foldl_cons]
    refine ⟨?_, ?_, ?_⟩
    · rw [h1, hstep]
      simp [pxOf, hpa]
      ring
    · rw [h2, hstep]
      simp
      ring
    · rw [h3, hstep]
      simp
      omega

theorem hist_fold_zero (lines : List TradeLine) :
    ∀ acc : HistAcc, (∀ l ∈ lines, l.price.isSome) → (∀ l ∈ lines, l.size = 0) →
      ((lines.foldl histStep acc).total_px = acc.total_px ∧
       (lines.foldl histStep acc).total_sz = acc.total_sz ∧
       (lines.foldl histStep acc).trades = acc.trades + lines.length) := by
  induction lines with
  | nil => intro acc _ _; simp
  | cons a t ih =>
    intro acc hP hS
    obtain ⟨pa, hpa⟩ := Option.isSome_iff_exists.mp (hP a (List.mem_cons_self a t))
    have hsa : a.size = 0 := hS a (List.mem_cons_self a t)
    have hns : ¬ (0 < a.size) := by rw [hsa]; exact lt_irrefl 0
    have hPt : ∀ l ∈ t, l.price.isSome := fun l hl => hP l (List.mem_cons_of_mem a hl)
    have hSt : ∀ l ∈ t, l.size = 0 := fun l hl => hS l (List.mem_cons_of_mem a hl)
    have hstep : histStep acc a =
        { acc with
          min_px := minComb acc.min_px (pa / 1000000000),
          max_px := maxComb acc.max_px (pa / 1000000000),
          trades := acc.trades + 1 } := by
      simp [histStep, hpa, hns]
    obtain ⟨h1, h2, h3⟩ := ih (histStep acc a) hPt hSt
    rw [List.foldl_cons]
    refine ⟨?_, ?_, ?_⟩
    · rw [h1, hstep]
    · rw [h2, hstep]
    · rw [h3, hstep]
      simp
      omega

theorem hist_fold_minmax (lines : List TradeLine) :
    ∀ acc : HistAcc,
      (lines.foldl histStep acc).min_px = (pxList lines).foldl minComb acc.min_px ∧
      (lines.foldl histStep acc).max_px = (pxList lines).foldl maxComb acc.max_px := by
  induction lines with
  | nil => intro acc; simp [pxList]
  | cons a t ih =>
    intro acc
    cases hpa : a.price with
    | none =>
      have hstep : histStep acc a = acc := by simp [histStep, hpa]
      have hpx : pxList (a :: t) = pxList t := by
        simp [pxList, List.filterMap_cons, hpa]
      rw [List.foldl_cons, hstep, hpx]
      exact ih acc
    | some pa =>
      have hmin : (histStep acc a).min_px = minComb acc.min_px (pa / 1000000000) := by
        simp only [histStep, hpa]
        split <;> rfl
      have hmax : (histStep acc a).max_px = maxComb acc.max_px (pa / 1000000000) := by
        simp only [histStep, hpa]
        split <;> rfl
      have hpx : pxList (a :: t) = (pa / 1000000000) :: pxList t := by
        simp [pxList, List.filterMap_cons, hpa]
      obtain ⟨ih1, ih2⟩ := ih (histStep acc a)
      rw [List.foldl_cons, hpx]
      constructor
      · rw [ih1, List.foldl_cons, hmin]
      · rw [ih2, List.foldl_cons, hmax]

/-- C7: with every line priced, the backfill computes
`Σ price·size / Σ size` when sizes are positive, falls back to the midpoint
`(min + max) / 2` of the window's prices when all traded sizes are zero, and
in either case performs a single insert of the result under the
canonicalized symbol. -/
theorem ingest_hist_vwap (cache : Cache) (symbol : String) (now : ℕ)
    (lines : List TradeLine) (hne : lines ≠ [])
    (hP : ∀ l ∈ lines, l.price.isSome) :
    ((∀ l ∈ lines, 0 < l.size) →
      ingest_hist_model cache symbol (.okBody lines) now =
        (.okResp (norm_symbol symbol)
          ((lines.map (fun l => pxOf l * l.size)).sum
            / (lines.map (fun l => l.size)).sum)
          lines.length,
         cacheInsert (norm_symbol symbol)
          ⟨some ((lines.map (fun l => pxOf l * l.size)).sum
            / (lines.map (fun l => l.size)).sum), some now⟩ cache)) ∧
    ((∀ l ∈ lines, l.size = 0) →
      ingest_hist_model cache symbol (.okBody lines) now =
        (.okResp (norm_symbol symbol)
          ((((pxList lines).foldl minComb none).getD 0
            + ((pxList lines).foldl maxComb none).getD 0) / 2)
          lines.length,
         cacheInsert (norm_symbol symbol)
          ⟨some ((((pxList lines).foldl minComb none).getD 0
            + ((pxList lines).foldl maxComb none).getD 0) / 2), some now⟩ cache)) := by
  constructor
  · intro hS
    obtain ⟨h1, h2, h3⟩ := hist_fold_pos lines histInit hP hS
    have hpxs : (lines.foldl histStep histInit).total_px
        = (lines.map (fun l => pxOf l * l.size)).sum := by
      rw [h1]; simp [histInit]
    have hsz : (lines.foldl histStep histInit).total_sz
        = (lines.map (fun l => l.size)).sum := by
      rw [h2]; simp [histInit]
    have htr : (lines.foldl histStep histInit).trades = lines.length := by
      rw [h3]; simp [histInit]
    have hpos : 0 < (lines.map (fun l => l.size)).sum := by
      apply List.sum_pos
      · intro x hx
        obtain ⟨l, hl, rfl⟩ := List.mem_map.mp hx
        exact hS l hl
      · simpa using hne
    have htr0 : ¬ ((lines.foldl histStep histInit).trades = 0) := by
      rw [htr]
      exact fun h => hne (List.length_eq_zero.mp h)
    have hvw : histVwap (lines.foldl histStep histInit)
        = (lines.map (fun l => pxOf l * l.size)).sum
            / (lines.map (fun l => l.size)).sum := by
      unfold histVwap
      rw [hsz, hpxs, if_pos hpos]
    simp only [ingest_hist_model, if_neg htr0]
    rw [htr, hvw]
  · intro hS
    obtain ⟨h1, h2, h3⟩ := hist_fold_zero lines histInit hP hS
    obtain ⟨hmn, hmx⟩ := hist_fold_minmax lines histInit
    have htr : (lines.foldl histStep histInit).trades = lines.length := by
      rw [h3]; simp [histInit]
    have htr0 : ¬ ((lines.foldl histStep histInit).trades = 0) := by
      rw [htr]
      exact fun h => hne (List.length_eq_zero.mp h)
    have hsz : (lines.foldl histStep histInit).total_sz = 0 := by
      rw [h2]; simp [histInit]
    have hnpos : ¬ (0 < (lines.foldl histStep histInit).total_sz) := by
      rw [hsz]
      exact lt_irrefl 0
    have hvw : histVwap (lines.foldl histStep histInit)
        = (((pxList lines).foldl minComb none).getD 0
            + ((pxList lines).foldl maxComb none).getD 0) / 2 := by
      unfold histVwap
      rw [if_neg hnpos, hmn, hmx]
      simp [histInit]
    simp only [ingest_hist_model, if_neg htr0]
    rw [htr, hvw]

/-- The two synthetic trades of the spec's VWAP example:
(price 100, size 10) and (price 102, size 30), with raw prices in
nano-dollars. -/
def demoLines : List TradeLine :=
  [⟨some 100000000000, 10⟩, ⟨some 102000000000, 30⟩]

/-- Witness for C7 at the spec's example: the computed VWAP is
`(100·10 + 102·30) / 40 = 101.5`. -/
theorem ingest_hist_vwap_witness :
    (∀ l ∈ demoLines, 0 < l.size) ∧
    (ingest_hist_model emptyCache "spy" (.okBody demoLines) 3).1
      = .okResp "SPY" (203 / 2) 2 := by
  refine ⟨by decide, ?_⟩
  have h := (ingest_hist_vwap emptyCache "spy" 3 demoLines (by decide)
    (by decide)).1 (by decide)
  have h1 := congrArg Prod.fst h
  simp only at h1
  rw [h1]
  have hsym : norm_symbol "spy" = "SPY" := by decide
  rw [hsym]
  norm_num [demoLines, pxOf]

/-- C8: an empty backfill window (zero priced trade lines) yields the
not-found outcome with the cache untouched, while an upstream HTTP failure
(transport error or non-success status) yields the gateway-error outcome,
also with the cache untouched. -/
theorem ingest_hist_failure (cache : Cache) (symbol : String) (now : ℕ) :
    (∀ lines : List TradeLine, (lines.foldl histStep histInit).trades = 0 →
      ingest_hist_model cache symbol (.okBody lines) now = (.notFound, cache)) ∧
    (ingest_hist_model cache symbol .reqFail now = (.badGateway, cache)) ∧
    (∀ code : ℕ,
      ingest_hist_model cache symbol (.non200 code) now = (.badGateway, cache)) := by
  refine ⟨?_, rfl, fun _ => rfl⟩
  intro lines h
  simp [ingest_hist_model, h]

/-- Witness for C8 at the empty window. -/
theorem ingest_hist_failure_witness :
    (([] : List TradeLine).foldl histStep histInit).trades = 0 ∧
    ingest_hist_model emptyCache "SPY" (.okBody []) 3 = (.notFound, emptyCache) :=
  ⟨rfl, (ingest_hist_failure emptyCache "SPY" 3).1 [] rfl⟩

/-! ### The cache-record invariant -/

/-- Every record present in the cache has both its price and its event
timestamp populated. -/
def CacheWF (c : Cache) : Prop :=
  ∀ k r, c k = some r → r.price.isSome ∧ r.ts_event_ns.isSome

theorem cacheInsert_WF {c : Cache} (h : CacheWF c) {k : String} {r : LastPrice}
    (hp : r.price.isSome) (ht : r.ts_event_ns.isSome) :
    CacheWF (cacheInsert k r c) := by
  intro k2 r2 h2
  unfold cacheInsert at h2
  by_cases hk : k2 = k
  · rw [if_pos hk] at h2
    injection h2 with h2
    subst h2
    exact ⟨hp, ht⟩
  · rw [if_neg hk] at h2
    exact h k2 r2 h2

/-- C10: starting from a cache in which every record has price and timestamp
present, every write path — the `ingest_one` endpoint (which substitutes the
wall clock when the caller omits the timestamp), the live trade routing, and
the historical backfill — preserves that invariant, so a cache read never
observes a record with a missing price or missing timestamp. -/
theorem cache_fields_present (cache : Cache) (hWF : CacheWF cache)
    (sym : String) (p : ℚ) (ts : Option ℕ) (now : ℕ)
    (mapping : ℕ → Option String) (t : TradeMsgM) (fetch : HistFetch) :
    CacheWF (ingest_one_model cache sym p ts now) ∧
    CacheWF ((routeTrade mapping cache t).1) ∧
    CacheWF (ingest_hist_model cache sym fetch now).2 := by
  refine ⟨?_, ?_, ?_⟩
  · apply cacheInsert_WF hWF
    · rfl
    · cases ts <;> rfl
  · exact cacheInsert_WF hWF rfl rfl
  · cases fetch with
    | reqFail => exact hWF
    | non200 code => exact hWF
    | bodyFail => exact hWF
    | okBody lines =>
      simp only [ingest_hist_model]
      split
      · exact hWF
      · exact cacheInsert_WF hWF rfl rfl

/-- Witness for C10 at the empty cache and one concrete write per path. -/
theorem cache_fields_present_witness :
    CacheWF (ingest_one_model emptyCache "A" 1 none 0) ∧
    CacheWF ((routeTrade mapping0 emptyCache ⟨1, 100000000000, 5⟩).1) :=
  ⟨(cache_fields_present emptyCache (fun _ _ h => Option.noConfusion h)
      "A" 1 none 0 mapping0 ⟨1, 100000000000, 5⟩ .reqFail).1,
   (cache_fields_present emptyCache (fun _ _ h => Option.noConfusion h)
      "A" 1 none 0 mapping0 ⟨1, 100000000000, 5⟩ .reqFail).2.1⟩
